import Mathlib

set_option maxRecDepth 10000

/-!
Shallow embedding of `index_creator.py` (repository DeepCodeSearchBT).

The embedding models the `IndexCreator` class: the synonym rewriting
(`replace_synonyms`), the per-field accumulation (`add_to_index`), the
inverted-index build with its TF-IDF weighting and sorting pass
(`create_index`), the data loading with its existence assertions and
vocabulary translation (`load_data`), and the `word_indices` branches of
`save_index` / `load_index`.

Python dictionaries (`dict`, `collections.Counter`) are modelled as
insertion-ordered association lists; Python strings as Lean `String`;
the external NLTK Porter stemmer as an arbitrary parameter
`stem : String → String`; `math.log10` as `Real.logb 10`.
-/

/-- Python `str.replace pat rep` on character lists: replace every
non-overlapping occurrence of `pat`, scanning left to right; the
replacement text is not rescanned.  `fuel` is instantiated with the
length of the subject string (an upper bound for the recursion). -/
def pyReplace (pat rep : List Char) : Nat → List Char → List Char
  | 0, s => s
  | _ + 1, [] => []
  | fuel + 1, c :: rest =>
    if !pat.isEmpty && pat.isPrefixOf (c :: rest)
    then rep ++ pyReplace pat rep fuel ((c :: rest).drop pat.length)
    else c :: pyReplace pat rep fuel rest

/-- Python `s.replace(pat, rep)` on strings. -/
def pyReplaceS (s pat rep : String) : String :=
  String.mk (pyReplace pat.data rep.data s.data.length s.data)

/-- Python `s.strip()`: remove leading and trailing whitespace. -/
def pyStrip (s : String) : String :=
  String.mk (((s.data.dropWhile Char.isWhitespace).reverse.dropWhile
    Char.isWhitespace).reverse)

/-- The ordered substitution table of `IndexCreator.replace_synonyms`
(`index_creator.py` lines 59-75), one `(pattern, replacement)` pair per
`.replace(...)` call, in source order. -/
def synonymRules : List (String × String) :=
  [(" read ", "load"), (" write", "store"), (" save", "store"), (" dump", "store"),
   (" quit", "exit"), (" termin ", "exit"), (" leav", "exit"), (" break ", "exit"),
   (" pop ", "delet"), ("remov", "delet"), (" trim ", "delet"), (" strip ", "delet"),
   (" halt", "stop"), ("restart", "continu"), ("push ", "add"), ("object", "instanc"),
   (" null ", "none"), ("method", "function"), ("concat ", "combin"),
   (" for ", "loop"), (" foreach ", "loop"), (" while ", "loop"), (" iterat ", "loop"),
   (" integ ", "int"), ("tinyint ", "int"), (" smallint ", "int"), (" bigint ", "int"),
   (" shortint ", "int"), ("longint ", "int"), (" byte ", "int"), (" short ", "int"),
   (" doubl ", "float"), (" long ", "float"), (" decim ", "float"), ("real ", "float"),
   (" array ", "[]"), (" arr ", "[]"), (" fastest ", "fast"), (" speed ", "fast"),
   (" defin ", "creat"), (" declar ", "creat"), (" init ", "creat"), (" construct ", "creat"),
   (" new ", "creat"), (" make ", "creat"), (" initi ", "creat"), (" initid ", "creat"),
   (" boolean ", "bool"), ("begin", "start"), ("run ", "execut"), ("runnabl", "execut"),
   (" enumer ", "enum"), (" enumerd ", "enum"), (" websit ", "web"),
   (" vertex ", "node"), (" arc ", "edg"), (" math ", "calc"), (" determin ", "calc"),
   (" should ", "check"), (" test ", "check"), (" is ", "check"), (" ensur ", "check"),
   (" equal ", "compar"), (" implement ", "extend"), (" whitespac ", "space")]

/-- `IndexCreator.replace_synonyms`: pad the word with boundary spaces,
apply the chained `str.replace` rules in source order (each rule's output
feeding the next rule), then `strip`. -/
def replace_synonyms (word : String) : String :=
  pyStrip (synonymRules.foldl (fun s r => pyReplaceS s r.1 r.2) (" " ++ word ++ " "))

/-- Python `s.split(sep)` for a single-character separator: the pieces
between occurrences of `sep`, keeping empty pieces (so `"".split` gives
`[""]`, and consecutive separators give empty pieces). -/
def pySplit1 (sep : Char) : List Char → List (List Char)
  | [] => [[]]
  | c :: rest =>
    let r := pySplit1 sep rest
    if c = sep then [] :: r
    else match r with
      | h :: t => (c :: h) :: t
      | [] => [[c]]

/-- Python `raw_word.split('_')` (line 162 of `add_to_index`). -/
def pySplitUnd (s : String) : List String :=
  (pySplit1 '_' s.data).map String.mk

/-- A Python `collections.Counter` mapping `doc_id ↦ raw count`,
modelled as an insertion-ordered association list. -/
abbrev Counter := List (Nat × Nat)

/-- The in-build inverted index: a Python `dict` mapping a term to its
`Counter`, modelled as an insertion-ordered association list. -/
abbrev Index := List (String × Counter)

/-- `Counter[i] += 1`: update the entry for key `i` in place if present,
otherwise append a new entry with value `1`. -/
def counterIncr : Counter → Nat → Counter
  | [], i => [(i, 1)]
  | p :: rest, i => if p.1 = i then (p.1, p.2 + 1) :: rest else p :: counterIncr rest i

/-- Lines 167-174 / 181-188 of `add_to_index`: if `word` is already a key
of the index, increment its counter at `i`; otherwise insert a fresh
counter `{i: 1}` for `word`. -/
def indexAdd : Index → String → Nat → Index
  | [], w, i => [(w, [(i, 1)])]
  | e :: rest, w, i =>
    if e.1 = w then (e.1, counterIncr e.2 i) :: rest else e :: indexAdd rest w i

/-- The Term Normalizer, lines 163-166 of `add_to_index`: reject a raw
sub-piece whose length is `< 2` or `> 18` or which is in the active
stopword set; otherwise stem it and rewrite synonyms. -/
def normalizeTerm (stem : String → String) (stopwords : List String)
    (word : String) : Option String :=
  if word.length < 2 ∨ word.length > 18 ∨ word ∈ stopwords then none
  else some (replace_synonyms (stem word))

/-- Processing of one underscore-delimited sub-piece in the
stopword-enabled branch of `add_to_index` (lines 163-174). -/
def processPiece (stem : String → String) (stop : List String)
    (idx : Index) (i : Nat) (word : String) : Index :=
  match normalizeTerm stem stop word with
  | none => idx
  | some t => indexAdd idx t i

/-- Processing of one document line in the stopword-enabled branch of
`add_to_index` (lines 159-174): split every raw word on `'_'` and feed
each sub-piece through `processPiece`. -/
def addLineStop (stem : String → String) (stop : List String)
    (idx : Index) (i : Nat) (line : List String) : Index :=
  line.foldl (fun a raw =>
    (pySplitUnd raw).foldl (fun a2 w => processPiece stem stop a2 i w) a) idx

/-- The stopword-enabled branch of `add_to_index` (`if stopwords:`),
enumerating the lines from document id 0. -/
def stopPass (stem : String → String) (stop : List String)
    (idx : Index) (lines : List (List String)) : Index :=
  (List.enumFrom 0 lines).foldl (fun a p => addLineStop stem stop a p.1 p.2) idx

/-- Processing of one document line in the stopword-disabled branch of
`add_to_index` (lines 178-188): only the literal token `"[]"` is indexed. -/
def addLineApi (idx : Index) (i : Nat) (line : List String) : Index :=
  line.foldl (fun a w => if w = "[]" then indexAdd a w i else a) idx

/-- The stopword-disabled (`else`) branch of `add_to_index`. -/
def apiPass (idx : Index) (lines : List (List String)) : Index :=
  (List.enumFrom 0 lines).foldl (fun a p => addLineApi a p.1 p.2) idx

/-- `IndexCreator.add_to_index`: Python's `if stopwords:` is truthy only
for a non-`None`, non-empty stopword set. -/
def add_to_index (stem : String → String) (idx : Index)
    (lines : List (List String)) (stopwords : Option (List String)) : Index :=
  match stopwords with
  | some stop => if stop = [] then apiPass idx lines else stopPass stem stop idx lines
  | none => apiPass idx lines

/-- Python `set.add`: membership-preserving insertion
(`stopwords.add('new')`, line 203). -/
def setAdd (stop : List String) (w : String) : List String :=
  if w ∈ stop then stop else stop ++ [w]

/-- The accumulation part of `create_index` for the `inverted_index`
type (lines 202-205): method names with the base stopword set, then the
tokens with `'new'` added to the set, then the API sequences with
stopwords disabled. -/
def create_index_raw (stem : String → String) (stop : List String)
    (mn tk api : List (List String)) : Index :=
  add_to_index stem
    (add_to_index stem
      (add_to_index stem [] mn (some stop))
      tk (some (setAdd stop "new")))
    api none

/-- `Counter[i]` read access (keys are unique in a `Counter`). -/
def counterGet : Counter → Nat → Nat
  | [], _ => 0
  | p :: rest, i => if p.1 = i then p.2 else counterGet rest i

/-- `index[t]` read access (`None` when the term is absent). -/
def indexGet : Index → String → Option Counter
  | [], _ => none
  | e :: rest, t => if e.1 = t then some e.2 else indexGet rest t

/-- The raw count stored for term `t` and document `i` (0 when absent). -/
def countOf (idx : Index) (t : String) (i : Nat) : Nat :=
  match indexGet idx t with
  | none => 0
  | some c => counterGet c i

/-- Whether the index has a postings entry mapping term `t` to
document `i`. -/
def hasPosting (idx : Index) (t : String) (i : Nat) : Bool :=
  match indexGet idx t with
  | none => false
  | some c => c.any (fun p => p.1 == i)

/-- The list of surviving normalized terms (with multiplicity) that one
document line contributes in a stopword-enabled pass. -/
def docTerms (stem : String → String) (stop : List String)
    (line : List String) : List String :=
  line.flatMap (fun raw => (pySplitUnd raw).filterMap (normalizeTerm stem stop))

/-- Declarative occurrence count: how many surviving normalized terms
equal to `t` document `i` contributes across the three field passes of
the inverted-index build. -/
def totalOcc (stem : String → String) (stop : List String)
    (mn tk api : List (List String)) (t : String) (i : Nat) : Nat :=
  (docTerms stem stop (mn.getD i [])).count t
  + (docTerms stem (setAdd stop "new") (tk.getD i [])).count t
  + (if t = "[]" then (api.getD i []).count "[]" else 0)

/-- The inverse document frequency of line 229:
`idf = math.log10(number_of_code_fragments / len(lines))`, with Python's
true division of integers. -/
noncomputable def idfF (N df : Nat) : ℝ :=
  Real.logb 10 ((N : ℝ) / (df : ℝ))

/-- The weighting loop of lines 227-232: replace every stored raw count
`tf` by `idf * math.log10(1 + tf)`, where `df` is the length of the
counter's key list. -/
noncomputable def weightCounter (N : Nat) (c : Counter) : List (Nat × ℝ) :=
  c.map (fun p => (p.1, idfF N c.length * Real.logb 10 (1 + (p.2 : ℝ))))

/-- The sort key of line 234, `key=lambda x: (-x[1], x[0])`, as a
relation: ascending lexicographic order on `(-weight, doc_id)`, i.e.
weight descending with ties broken by `doc_id` ascending. -/
def postLE (a b : Nat × ℝ) : Prop :=
  b.2 < a.2 ∨ (a.2 = b.2 ∧ a.1 ≤ b.1)

/-- `sorted(index[word].items(), key=lambda x: (-x[1], x[0]))` of line
234.  Python's `sorted` is a stable sort; since the key is injective on
a counter's items (doc ids are unique), any stable sort yields the same
list, and we use insertion sort. -/
noncomputable def sortItems (c : List (Nat × ℝ)) : List (Nat × ℝ) :=
  @List.insertionSort (Nat × ℝ) postLE (fun a b => Classical.propDecidable (postLE a b)) c

/-- The full weighting-and-sorting pass of lines 227-234, applied to
every term of the index (dict order is preserved). -/
noncomputable def weight_index (N : Nat) (idx : Index) :
    List (String × List (Nat × ℝ)) :=
  idx.map (fun e => (e.1, sortItems (weightCounter N e.2)))

/-- `create_index` for the `inverted_index` type: accumulate the three
field passes, then weight and sort with
`N = number_of_code_fragments = len(methnames)` (line 206). -/
noncomputable def create_index (stem : String → String) (stop : List String)
    (mn tk api : List (List String)) : List (String × List (Nat × ℝ)) :=
  weight_index mn.length (create_index_raw stem stop mn tk api)

/-- `index[t]` read access on the weighted index. -/
def windexGet : List (String × List (Nat × ℝ)) → String → Option (List (Nat × ℝ))
  | [], _ => none
  | e :: rest, t => if e.1 = t then some e.2 else windexGet rest t

/-- The stored postings list of term `t` in the weighted index
(empty when the term is absent). -/
noncomputable def wPostings (idx : List (String × List (Nat × ℝ))) (t : String) :
    List (Nat × ℝ) :=
  (windexGet idx t).getD []

/-! ### The I/O boundary: `load_data`, `save_index`, `load_index` -/

/-- One component of a `load_data` return tuple: a field either in
integer-encoded form or translated back to strings. -/
inductive PyField where
  | ints (v : List (List Nat))
  | strs (v : List (List String))
deriving DecidableEq

/-- `dict((v, k) for k, v in vocab.items()).get(i)` (lines 87-92): the
inverted vocabulary lookup; on duplicate indices the later vocabulary
entry wins, exactly as when building a Python dict. -/
def invGet (vocab : List (String × Nat)) (i : Nat) : Option String :=
  (vocab.reverse.find? (fun p => p.2 == i)).map Prod.fst

/-- Translation of one integer-encoded document back to natural
language, line 90-92: absent indices render as `'UNK'`. -/
def invTranslate (vocab : List (String × Nat)) (l : List Nat) : List String :=
  l.map (fun i => (invGet vocab i).getD "UNK")

/-- The value returned by `load_data` (lines 84-96) once the existence
assertions have passed, as the list of components of the returned tuple:
two integer-encoded fields for `word_indices`, three translated string
fields for `inverted_index`, and `None` (no `return` hit) otherwise. -/
def load_data_ret (index_type : String) (vm vt va : List (String × Nat))
    (mni tki ani : List (List Nat)) : Option (List PyField) :=
  if index_type = "word_indices" then
    some [PyField.ints mni, PyField.ints tki]
  else if index_type = "inverted_index" then
    some [PyField.strs (mni.map (invTranslate vm)),
          PyField.strs (tki.map (invTranslate vt)),
          PyField.strs (ani.map (invTranslate va))]
  else none

/-- The three existence assertions at the top of `load_data`
(lines 78-80), checked in source order against the set `fs` of existing
paths; the result is the message of the first failing assertion. -/
structure DataParams where
  use_methname : String
  use_tokens : String
  use_apiseq : String

def missing_input (fs : List String) (dpath : String) (dp : DataParams) :
    Option String :=
  if (dpath ++ dp.use_methname) ∉ fs then some "Method names of real data not found."
  else if (dpath ++ dp.use_tokens) ∉ fs then some "Tokens of real data not found."
  else if (dpath ++ dp.use_apiseq) ∉ fs then some "API sequences of real data not found."
  else none

/-- `load_data` including its assertions: `Except.error` is a raised
`AssertionError`, carrying the assertion message. -/
def load_data (fs : List String) (index_type dpath : String) (dp : DataParams)
    (vm vt va : List (String × Nat)) (mni tki ani : List (List Nat)) :
    Except String (Option (List PyField)) :=
  match missing_input fs dpath dp with
  | some e => Except.error e
  | none => Except.ok (load_data_ret index_type vm vt va mni tki ani)

/-- Python tuple unpacking `a, b, c = t`: succeeds only when the tuple
has exactly three components, otherwise raises a `ValueError`. -/
def unpack3 (l : List PyField) : Except String (PyField × PyField × PyField) :=
  match l with
  | [a, b, c] => Except.ok (a, b, c)
  | _ => Except.error "ValueError: not enough values to unpack (expected 3, got 2)"

/-- The `word_indices` branch of `load_index` (lines 136-138):
`methnames, tokens, irrelevant = self.load_data()` followed by
`return methnames, tokens`. -/
def load_index_word_indices (fs : List String) (dpath : String) (dp : DataParams)
    (vm vt va : List (String × Nat)) (mni tki ani : List (List Nat)) :
    Except String (PyField × PyField) :=
  match load_data fs "word_indices" dpath dp vm vt va mni tki ani with
  | Except.error e => Except.error e
  | Except.ok none => Except.error "TypeError: cannot unpack non-iterable NoneType object"
  | Except.ok (some l) =>
    match unpack3 l with
    | Except.error e => Except.error e
    | Except.ok (m, t, _) => Except.ok (m, t)

/-- `save_index` (lines 122-133): for the `word_indices` type nothing is
persisted (`return` on line 123); otherwise the index is written out. -/
def save_index {α : Type} (index_type : String) (index : α) : Option α :=
  if index_type = "word_indices" then none else some index

/-- `create_index` (lines 190-237) for the `word_indices` type returns
on line 191 before `load_data` is called, before the in-memory index is
created and before `save_index` runs: nothing is built or persisted.
For `inverted_index` the build runs behind `load_data`'s assertions. -/
noncomputable def create_index_checked (fs : List String) (dpath : String) (dp : DataParams)
    (stem : String → String) (stop : List String)
    (vm vt va : List (String × Nat)) (mni tki ani : List (List Nat)) :
    Except String (List (String × List (Nat × ℝ))) :=
  match load_data fs "inverted_index" dpath dp vm vt va mni tki ani with
  | Except.error e => Except.error e
  | Except.ok (some [PyField.strs mn, PyField.strs tk, PyField.strs api]) =>
    Except.ok (create_index stem stop mn tk api)
  | Except.ok _ => Except.error "ValueError: not enough values to unpack (expected 3, got 2)"

noncomputable def create_index_run (index_type fs_dpath : String)
    (fs : List String) (dp : DataParams) (stem : String → String)
    (stop : List String) (vm vt va : List (String × Nat))
    (mni tki ani : List (List Nat)) :
    Option (Except String (List (String × List (Nat × ℝ)))) :=
  if index_type = "word_indices" then none
  else some (create_index_checked fs fs_dpath dp stem stop vm vt va mni tki ani)

/-- Whether `pat` occurs at the start of `s` (character lists). -/
def startsWithChars : List Char → List Char → Bool
  | [], _ => true
  | _ :: _, [] => false
  | a :: as, b :: bs => a = b && startsWithChars as bs

/-- Whether `pat` occurs anywhere inside `s` (substring occurrence). -/
def occursIn (pat : List Char) : List Char → Bool
  | [] => pat.isEmpty
  | c :: rest => startsWithChars pat (c :: rest) || occursIn pat rest

/-- The 10-document method-name field of spec scenario 3: the term
`store` occurs in exactly two documents, with raw counts 1 (doc 0) and
3 (doc 1). -/
def mn10 : List (List String) :=
  [["store"], ["store", "store", "store"], ["alpha"], ["alpha"], ["alpha"],
   ["alpha"], ["alpha"], ["alpha"], ["alpha"], ["alpha"]]

def tk10 : List (List String) := List.replicate 10 []

def api10 : List (List String) := List.replicate 10 []

/-! ### Point lemmas about counters and the index -/

theorem counterGet_incr (c : Counter) (j i : Nat) :
    counterGet (counterIncr c j) i = counterGet c i + (if i = j then 1 else 0) := by
  induction c with
  | nil =>
    simp only [counterIncr, counterGet]
    split_ifs <;> omega
  | cons p rest ih =>
    simp only [counterIncr]
    by_cases hp : p.1 = j
    · rw [if_pos hp]
      simp only [counterGet]
      split_ifs <;> omega
    · rw [if_neg hp]
      simp only [counterGet]
      by_cases hpi : p.1 = i
      · rw [if_pos hpi, if_pos hpi, if_neg (fun hh : i = j => hp (hpi.trans hh))]
        omega
      · rw [if_neg hpi, if_neg hpi, ih]

theorem indexGet_indexAdd_self (idx : Index) (w : String) (j : Nat) :
    indexGet (indexAdd idx w j) w
      = some (match indexGet idx w with
              | none => [(j, 1)]
              | some c => counterIncr c j) := by
  induction idx with
  | nil => simp [indexAdd, indexGet]
  | cons e rest ih =>
    simp only [indexAdd]
    split_ifs with he
    · simp [indexGet, he]
    · simp only [indexGet, if_neg he, ih]

theorem indexGet_indexAdd_ne (idx : Index) (w : String) (j : Nat) (t : String)
    (h : t ≠ w) : indexGet (indexAdd idx w j) t = indexGet idx t := by
  induction idx with
  | nil =>
    have hw : ¬ w = t := fun hh => h hh.symm
    simp [indexAdd, indexGet, hw]
  | cons e rest ih =>
    simp only [indexAdd]
    split_ifs with he
    · subst he
      rw [indexGet, indexGet, if_neg (fun hh : e.1 = t => h hh.symm),
        if_neg (fun hh : e.1 = t => h hh.symm)]
    · rw [indexGet, indexGet]
      split_ifs with ht
      · rfl
      · exact ih

theorem countOf_indexAdd (idx : Index) (w : String) (j : Nat) (t : String) (i : Nat) :
    countOf (indexAdd idx w j) t i
      = countOf idx t i + (if t = w ∧ i = j then 1 else 0) := by
  by_cases ht : t = w
  · subst ht
    simp only [eq_self_iff_true, true_and]
    simp only [countOf]
    rw [indexGet_indexAdd_self]
    rcases hg : indexGet idx t with _ | c
    · simp only [counterGet]
      split_ifs <;> omega
    · simp only [counterGet_incr]
  · have hcond : ¬ (t = w ∧ i = j) := fun hh => ht hh.1
    simp only [countOf]
    rw [indexGet_indexAdd_ne idx w j t ht, if_neg hcond]
    exact (Nat.add_zero _).symm

theorem countOf_nil (t : String) (i : Nat) : countOf [] t i = 0 := rfl

/-! ### Count characterization of the accumulation passes -/

theorem countOf_processPiece (stem : String → String) (stop : List String)
    (idx : Index) (j : Nat) (w : String) (t : String) (i : Nat) :
    countOf (processPiece stem stop idx j w) t i
      = countOf idx t i
        + (if normalizeTerm stem stop w = some t ∧ i = j then 1 else 0) := by
  rw [processPiece]
  rcases hn : normalizeTerm stem stop w with _ | u
  · simp
  · rw [countOf_indexAdd]
    by_cases htu : t = u
    · subst htu; simp
    · have h1 : ¬ (t = u ∧ i = j) := fun hh => htu hh.1
      have h2 : ¬ (some u = some t ∧ i = j) := fun hh => htu (Option.some.inj hh.1).symm
      rw [if_neg h1, if_neg h2]

theorem countOf_pieceFold (stem : String → String) (stop : List String)
    (j : Nat) (t : String) (i : Nat) :
    ∀ (ws : List String) (idx : Index),
      countOf (ws.foldl (fun a2 w => processPiece stem stop a2 j w) idx) t i
        = countOf idx t i
          + (if i = j then (ws.filterMap (normalizeTerm stem stop)).count t else 0) := by
  intro ws
  induction ws with
  | nil => intro idx; simp
  | cons w rest ih =>
    intro idx
    rw [List.foldl_cons, ih, countOf_processPiece]
    rcases hn : normalizeTerm stem stop w with _ | u
    · simp [List.filterMap_cons, hn]
    · simp only [List.filterMap_cons, hn]
      by_cases htu : u = t
      · subst htu
        rw [List.count_cons_self]
        simp only [Option.some.injEq, eq_self_iff_true, true_and]
        split_ifs <;> omega
      · have h1 : ¬ (some u = some t ∧ i = j) := fun hh => htu (Option.some.inj hh.1)
        rw [if_neg h1]
        have hts : ¬ t = u := fun hh => htu hh.symm
        have h2 : (u :: rest.filterMap (normalizeTerm stem stop)).count t
            = (rest.filterMap (normalizeTerm stem stop)).count t := by
          simp [List.count_cons, beq_iff_eq, hts]
        rw [h2]
        omega

theorem countOf_addLineStop (stem : String → String) (stop : List String)
    (j : Nat) (t : String) (i : Nat) :
    ∀ (line : List String) (idx : Index),
      countOf (addLineStop stem stop idx j line) t i
        = countOf idx t i + (if i = j then (docTerms stem stop line).count t else 0) := by
  intro line
  induction line with
  | nil => intro idx; simp [addLineStop, docTerms]
  | cons raw rest ih =>
    intro idx
    rw [addLineStop, List.foldl_cons]
    have hrest : rest.foldl (fun a r =>
        (pySplitUnd r).foldl (fun a2 w => processPiece stem stop a2 j w) a)
        ((pySplitUnd raw).foldl (fun a2 w => processPiece stem stop a2 j w) idx)
        = addLineStop stem stop
            ((pySplitUnd raw).foldl (fun a2 w => processPiece stem stop a2 j w) idx)
            j rest := rfl
    rw [hrest, ih, countOf_pieceFold]
    have hd : docTerms stem stop (raw :: rest)
        = (pySplitUnd raw).filterMap (normalizeTerm stem stop) ++ docTerms stem stop rest := by
      simp [docTerms]
    rw [hd, List.count_append]
    split_ifs <;> omega

theorem countOf_stopPass_enumFrom (stem : String → String) (stop : List String)
    (t : String) (i : Nat) :
    ∀ (lines : List (List String)) (n : Nat) (idx : Index),
      countOf ((List.enumFrom n lines).foldl
          (fun a p => addLineStop stem stop a p.1 p.2) idx) t i
        = countOf idx t i
          + (if n ≤ i then (docTerms stem stop (lines.getD (i - n) [])).count t else 0) := by
  intro lines
  induction lines with
  | nil =>
    intro n idx
    simp [docTerms]
  | cons l rest ih =>
    intro n idx
    rw [List.enumFrom, List.foldl_cons, ih, countOf_addLineStop]
    rcases Nat.lt_trichotomy i n with hlt | heq | hgt
    · rw [if_neg (fun hh : i = n => Nat.lt_irrefl i (hh ▸ hlt)),
        if_neg (by omega : ¬ n + 1 ≤ i), if_neg (by omega : ¬ n ≤ i)]
    · subst heq
      rw [if_pos rfl, if_neg (by omega : ¬ i + 1 ≤ i), if_pos (Nat.le_refl i)]
      simp
    · rw [if_neg (by omega : ¬ i = n), if_pos (by omega : n + 1 ≤ i),
        if_pos (by omega : n ≤ i)]
      have h1 : i - n = (i - (n + 1)) + 1 := by omega
      rw [h1, List.getD_cons_succ]
      omega

theorem countOf_stopPass (stem : String → String) (stop : List String)
    (lines : List (List String)) (idx : Index) (t : String) (i : Nat) :
    countOf (stopPass stem stop idx lines) t i
      = countOf idx t i + (docTerms stem stop (lines.getD i [])).count t := by
  rw [stopPass, countOf_stopPass_enumFrom, if_pos (Nat.zero_le i), Nat.sub_zero]

theorem countOf_addLineApi (j : Nat) (t : String) (i : Nat) :
    ∀ (line : List String) (idx : Index),
      countOf (addLineApi idx j line) t i
        = countOf idx t i + (if t = "[]" ∧ i = j then line.count "[]" else 0) := by
  intro line
  induction line with
  | nil => intro idx; simp [addLineApi]
  | cons w rest ih =>
    intro idx
    rw [addLineApi, List.foldl_cons]
    have hrest : rest.foldl (fun a v => if v = "[]" then indexAdd a v j else a)
        (if w = "[]" then indexAdd idx w j else idx)
        = addLineApi (if w = "[]" then indexAdd idx w j else idx) j rest := rfl
    rw [hrest, ih]
    by_cases hw : w = "[]"
    · subst hw
      rw [if_pos rfl, countOf_indexAdd, List.count_cons_self]
      split_ifs <;> omega
    · rw [if_neg hw]
      have hc : (w :: rest).count "[]" = rest.count "[]" := by
        simp [List.count_cons, beq_iff_eq, hw]
      rw [hc]

theorem countOf_apiPass_enumFrom (t : String) (i : Nat) :
    ∀ (lines : List (List String)) (n : Nat) (idx : Index),
      countOf ((List.enumFrom n lines).foldl (fun a p => addLineApi a p.1 p.2) idx) t i
        = countOf idx t i
          + (if t = "[]" ∧ n ≤ i then (lines.getD (i - n) []).count "[]" else 0) := by
  intro lines
  induction lines with
  | nil =>
    intro n idx
    simp
  | cons l rest ih =>
    intro n idx
    rw [List.enumFrom, List.foldl_cons, ih, countOf_addLineApi]
    by_cases ht : t = "[]"
    · subst ht
      simp only [eq_self_iff_true, true_and]
      rcases Nat.lt_trichotomy i n with hlt | heq | hgt
      · rw [if_neg (fun hh : i = n => Nat.lt_irrefl i (hh ▸ hlt)),
          if_neg (by omega : ¬ n + 1 ≤ i), if_neg (by omega : ¬ n ≤ i)]
      · subst heq
        rw [if_pos rfl, if_neg (by omega : ¬ i + 1 ≤ i), if_pos (Nat.le_refl i)]
        simp
      · rw [if_neg (by omega : ¬ i = n), if_pos (by omega : n + 1 ≤ i),
          if_pos (by omega : n ≤ i)]
        have h1 : i - n = (i - (n + 1)) + 1 := by omega
        rw [h1, List.getD_cons_succ]
        omega
    · have h1 : ¬ (t = "[]" ∧ i = n) := fun hh => ht hh.1
      have h2 : ¬ (t = "[]" ∧ n + 1 ≤ i) := fun hh => ht hh.1
      have h3 : ¬ (t = "[]" ∧ n ≤ i) := fun hh => ht hh.1
      rw [if_neg h1, if_neg h2, if_neg h3]

theorem countOf_apiPass (lines : List (List String)) (idx : Index)
    (t : String) (i : Nat) :
    countOf (apiPass idx lines) t i
      = countOf idx t i + (if t = "[]" then (lines.getD i []).count "[]" else 0) := by
  rw [apiPass, countOf_apiPass_enumFrom]
  by_cases ht : t = "[]"
  · rw [if_pos (by exact ⟨ht, Nat.zero_le i⟩), if_pos ht, Nat.sub_zero]
  · rw [if_neg (fun hh => ht hh.1), if_neg ht]

theorem setAdd_ne_nil (stop : List String) (h : stop ≠ []) : setAdd stop "new" ≠ [] := by
  rw [setAdd]
  split_ifs
  · exact h
  · simp

/-- Master characterization: for a truthy base stopword set, the raw
count stored by the inverted-index accumulation equals the declarative
occurrence count over the three field passes. -/
theorem countOf_create_index_raw (stem : String → String) (stop : List String)
    (mn tk api : List (List String)) (t : String) (i : Nat) (h : stop ≠ []) :
    countOf (create_index_raw stem stop mn tk api) t i
      = totalOcc stem stop mn tk api t i := by
  rw [create_index_raw, add_to_index, add_to_index, add_to_index,
    if_neg h, if_neg (setAdd_ne_nil stop h)]
  rw [countOf_apiPass, countOf_stopPass, countOf_stopPass, countOf_nil, totalOcc]
  omega

/-! ### Structural invariants of the accumulated index -/

/-- Well-formedness of a counter: unique doc-id keys, all counts at
least 1. -/
def CounterWF (c : Counter) : Prop :=
  (c.map Prod.fst).Nodup ∧ ∀ p ∈ c, 1 ≤ p.2

/-- Well-formedness of the in-build index: every stored counter is
well-formed and non-empty. -/
def IndexWF (idx : Index) : Prop :=
  ∀ e ∈ idx, CounterWF e.2 ∧ e.2 ≠ []

theorem counterIncr_keys (c : Counter) (j : Nat) :
    (counterIncr c j).map Prod.fst
      = if j ∈ c.map Prod.fst then c.map Prod.fst else c.map Prod.fst ++ [j] := by
  induction c with
  | nil => simp [counterIncr]
  | cons p rest ih =>
    by_cases hp : p.1 = j
    · rw [counterIncr, if_pos hp]
      have hmem : j ∈ (p :: rest).map Prod.fst := by
        rw [List.map_cons, hp]
        exact List.mem_cons_self j _
      rw [if_pos hmem, List.map_cons, List.map_cons]
    · rw [counterIncr, if_neg hp, List.map_cons, ih]
      by_cases hj : j ∈ rest.map Prod.fst
      · have hmem : j ∈ (p :: rest).map Prod.fst := by
          rw [List.map_cons]
          exact List.mem_cons_of_mem _ hj
        rw [if_pos hj, if_pos hmem, List.map_cons]
      · have hmem : j ∉ (p :: rest).map Prod.fst := by
          rw [List.map_cons]
          intro hh
          rcases List.mem_cons.mp hh with hh1 | hh1
          · exact hp hh1.symm
          · exact hj hh1
        rw [if_neg hj, if_neg hmem, List.map_cons, List.cons_append]

theorem counterIncr_WF (c : Counter) (j : Nat) (h : CounterWF c) :
    CounterWF (counterIncr c j) := by
  constructor
  · rw [counterIncr_keys]
    split_ifs with hj
    · exact h.1
    · refine List.Nodup.append h.1 (List.nodup_singleton j) ?_
      intro a ha hb
      rw [List.mem_singleton] at hb
      subst hb
      exact hj ha
  · intro p hp
    induction c with
    | nil =>
      simp only [counterIncr, List.mem_singleton] at hp
      subst hp
      exact Nat.le_refl 1
    | cons q rest ih =>
      simp only [counterIncr] at hp
      split_ifs at hp with hq
      · rcases List.mem_cons.mp hp with hh | hh
        · subst hh
          have := h.2 q (List.mem_cons_self q rest)
          omega
        · exact h.2 p (List.mem_cons_of_mem q hh)
      · rcases List.mem_cons.mp hp with hh | hh
        · subst hh
          exact h.2 p (List.mem_cons_self p rest)
        · exact ih ⟨(List.nodup_cons.mp h.1).2,
            fun r hr => h.2 r (List.mem_cons_of_mem q hr)⟩ hh

theorem counterIncr_ne_nil (c : Counter) (j : Nat) : counterIncr c j ≠ [] := by
  cases c with
  | nil => simp [counterIncr]
  | cons p rest =>
    simp only [counterIncr]
    split_ifs <;> simp

theorem IndexWF_indexAdd (idx : Index) (w : String) (j : Nat) (h : IndexWF idx) :
    IndexWF (indexAdd idx w j) := by
  induction idx with
  | nil =>
    intro e he
    simp only [indexAdd, List.mem_singleton] at he
    subst he
    exact ⟨⟨by simp, by simp⟩, by simp⟩
  | cons q rest ih =>
    simp only [indexAdd]
    split_ifs with hq
    · intro e he
      rcases List.mem_cons.mp he with hh | hh
      · subst hh
        have hq2 := h q (List.mem_cons_self q rest)
        exact ⟨counterIncr_WF q.2 j hq2.1, counterIncr_ne_nil q.2 j⟩
      · exact h e (List.mem_cons_of_mem q hh)
    · intro e he
      rcases List.mem_cons.mp he with hh | hh
      · subst hh; exact h e (List.mem_cons_self e rest)
      · exact ih (fun r hr => h r (List.mem_cons_of_mem q hr)) e hh

/-- Generic preservation of a predicate through a left fold. -/
theorem foldl_preserve {α : Type} {P : Index → Prop} (f : Index → α → Index) :
    ∀ (l : List α), (∀ idx a, a ∈ l → P idx → P (f idx a)) →
      ∀ idx, P idx → P (l.foldl f idx) := by
  intro l
  induction l with
  | nil => intro _ idx h; exact h
  | cons a rest ih =>
    intro hstep idx h
    rw [List.foldl_cons]
    exact ih (fun idx2 b hb hP => hstep idx2 b (List.mem_cons_of_mem a hb) hP)
      (f idx a) (hstep idx a (List.mem_cons_self a rest) h)

theorem IndexWF_processPiece (stem : String → String) (stop : List String)
    (idx : Index) (j : Nat) (w : String) (h : IndexWF idx) :
    IndexWF (processPiece stem stop idx j w) := by
  rw [processPiece]
  rcases normalizeTerm stem stop w with _ | u
  · exact h
  · exact IndexWF_indexAdd idx u j h

theorem IndexWF_addLineStop (stem : String → String) (stop : List String)
    (idx : Index) (j : Nat) (line : List String) (h : IndexWF idx) :
    IndexWF (addLineStop stem stop idx j line) := by
  rw [addLineStop]
  refine foldl_preserve _ line (fun idx2 raw _ h2 => ?_) idx h
  exact foldl_preserve _ (pySplitUnd raw)
    (fun idx3 w _ h3 => IndexWF_processPiece stem stop idx3 j w h3) idx2 h2

theorem IndexWF_stopPass (stem : String → String) (stop : List String)
    (idx : Index) (lines : List (List String)) (h : IndexWF idx) :
    IndexWF (stopPass stem stop idx lines) := by
  rw [stopPass]
  exact foldl_preserve _ _
    (fun idx2 p _ h2 => IndexWF_addLineStop stem stop idx2 p.1 p.2 h2) idx h

theorem IndexWF_addLineApi (idx : Index) (j : Nat) (line : List String)
    (h : IndexWF idx) : IndexWF (addLineApi idx j line) := by
  rw [addLineApi]
  refine foldl_preserve _ line (fun idx2 w _ h2 => ?_) idx h
  split_ifs
  · exact IndexWF_indexAdd idx2 w j h2
  · exact h2

theorem IndexWF_apiPass (idx : Index) (lines : List (List String))
    (h : IndexWF idx) : IndexWF (apiPass idx lines) := by
  rw [apiPass]
  exact foldl_preserve _ _
    (fun idx2 p _ h2 => IndexWF_addLineApi idx2 p.1 p.2 h2) idx h

theorem IndexWF_add_to_index (stem : String → String) (idx : Index)
    (lines : List (List String)) (stopwords : Option (List String))
    (h : IndexWF idx) : IndexWF (add_to_index stem idx lines stopwords) := by
  rcases stopwords with _ | stop
  · exact IndexWF_apiPass idx lines h
  · simp only [add_to_index]
    split_ifs
    · exact IndexWF_apiPass idx lines h
    · exact IndexWF_stopPass stem stop idx lines h

theorem IndexWF_nil : IndexWF [] := fun e he => absurd he (List.not_mem_nil e)

theorem IndexWF_create_index_raw (stem : String → String) (stop : List String)
    (mn tk api : List (List String)) :
    IndexWF (create_index_raw stem stop mn tk api) := by
  rw [create_index_raw]
  exact IndexWF_add_to_index _ _ _ _
    (IndexWF_add_to_index _ _ _ _ (IndexWF_add_to_index _ _ _ _ IndexWF_nil))

/-- All doc ids stored in the index are below the bound `B`. -/
def IndexBound (idx : Index) (B : Nat) : Prop :=
  ∀ e ∈ idx, ∀ p ∈ e.2, p.1 < B

theorem counterIncr_bound (c : Counter) (j B : Nat) (hj : j < B)
    (h : ∀ p ∈ c, p.1 < B) : ∀ p ∈ counterIncr c j, p.1 < B := by
  induction c with
  | nil =>
    intro p hp
    simp only [counterIncr, List.mem_singleton] at hp
    subst hp
    exact hj
  | cons q rest ih =>
    intro p hp
    simp only [counterIncr] at hp
    split_ifs at hp with hq
    · rcases List.mem_cons.mp hp with hh | hh
      · subst hh; exact h q (List.mem_cons_self q rest)
      · exact h p (List.mem_cons_of_mem q hh)
    · rcases List.mem_cons.mp hp with hh | hh
      · subst hh; exact h p (List.mem_cons_self p rest)
      · exact ih (fun r hr => h r (List.mem_cons_of_mem q hr)) p hh

theorem IndexBound_indexAdd (idx : Index) (w : String) (j B : Nat) (hj : j < B)
    (h : IndexBound idx B) : IndexBound (indexAdd idx w j) B := by
  induction idx with
  | nil =>
    intro e he
    simp only [indexAdd, List.mem_singleton] at he
    subst he
    intro p hp
    simp only [List.mem_singleton] at hp
    subst hp
    exact hj
  | cons q rest ih =>
    simp only [indexAdd]
    split_ifs with hq
    · intro e he
      rcases List.mem_cons.mp he with hh | hh
      · subst hh
        exact counterIncr_bound q.2 j B hj (h q (List.mem_cons_self q rest))
      · exact h e (List.mem_cons_of_mem q hh)
    · intro e he
      rcases List.mem_cons.mp he with hh | hh
      · subst hh; exact h e (List.mem_cons_self e rest)
      · exact ih (fun r hr => h r (List.mem_cons_of_mem q hr)) e hh

theorem fst_lt_of_mem_enumFrom {α : Type} :
    ∀ {l : List α} {n : Nat} {x : Nat × α}, x ∈ List.enumFrom n l → x.1 < n + l.length := by
  intro l
  induction l with
  | nil => intro n x hx; exact absurd hx (List.not_mem_nil x)
  | cons a rest ih =>
    intro n x hx
    rw [List.enumFrom] at hx
    rcases List.mem_cons.mp hx with hh | hh
    · subst hh; simp
    · have := ih hh
      simp only [List.length_cons]
      omega

theorem IndexBound_processPiece (stem : String → String) (stop : List String)
    (idx : Index) (j B : Nat) (w : String) (hj : j < B) (h : IndexBound idx B) :
    IndexBound (processPiece stem stop idx j w) B := by
  rw [processPiece]
  rcases normalizeTerm stem stop w with _ | u
  · exact h
  · exact IndexBound_indexAdd idx u j B hj h

theorem IndexBound_addLineStop (stem : String → String) (stop : List String)
    (idx : Index) (j B : Nat) (line : List String) (hj : j < B)
    (h : IndexBound idx B) : IndexBound (addLineStop stem stop idx j line) B := by
  rw [addLineStop]
  refine @foldl_preserve _ (fun ix => IndexBound ix B) _ line
    (fun idx2 raw _ h2 => ?_) idx h
  exact @foldl_preserve _ (fun ix => IndexBound ix B) _ (pySplitUnd raw)
    (fun idx3 w _ h3 => IndexBound_processPiece stem stop idx3 j B w hj h3) idx2 h2

theorem IndexBound_addLineApi (idx : Index) (j B : Nat) (line : List String)
    (hj : j < B) (h : IndexBound idx B) : IndexBound (addLineApi idx j line) B := by
  rw [addLineApi]
  refine @foldl_preserve _ (fun ix => IndexBound ix B) _ line
    (fun idx2 w _ h2 => ?_) idx h
  split_ifs
  · exact IndexBound_indexAdd idx2 w j B hj h2
  · exact h2

theorem IndexBound_stopPass (stem : String → String) (stop : List String)
    (idx : Index) (lines : List (List String)) (B : Nat)
    (hlen : lines.length ≤ B) (h : IndexBound idx B) :
    IndexBound (stopPass stem stop idx lines) B := by
  rw [stopPass]
  refine @foldl_preserve _ (fun ix => IndexBound ix B) _ _
    (fun idx2 p hp h2 => ?_) idx h
  have := fst_lt_of_mem_enumFrom hp
  exact IndexBound_addLineStop stem stop idx2 p.1 B p.2 (by omega) h2

theorem IndexBound_apiPass (idx : Index) (lines : List (List String)) (B : Nat)
    (hlen : lines.length ≤ B) (h : IndexBound idx B) :
    IndexBound (apiPass idx lines) B := by
  rw [apiPass]
  refine @foldl_preserve _ (fun ix => IndexBound ix B) _ _
    (fun idx2 p hp h2 => ?_) idx h
  have := fst_lt_of_mem_enumFrom hp
  exact IndexBound_addLineApi idx2 p.1 B p.2 (by omega) h2

theorem IndexBound_create_index_raw (stem : String → String) (stop : List String)
    (mn tk api : List (List String)) (B : Nat)
    (h1 : mn.length ≤ B) (h2 : tk.length ≤ B) (h3 : api.length ≤ B) :
    IndexBound (create_index_raw stem stop mn tk api) B := by
  rw [create_index_raw]
  have hnil : IndexBound [] B := fun e he => absurd he (List.not_mem_nil e)
  have hb1 : IndexBound (add_to_index stem [] mn (some stop)) B := by
    rw [add_to_index]
    split_ifs
    · exact IndexBound_apiPass [] mn B h1 hnil
    · exact IndexBound_stopPass stem stop [] mn B h1 hnil
  have hb2 : IndexBound (add_to_index stem
      (add_to_index stem [] mn (some stop)) tk (some (setAdd stop "new"))) B := by
    rw [add_to_index]
    split_ifs
    · exact IndexBound_apiPass _ tk B h2 hb1
    · exact IndexBound_stopPass _ _ _ tk B h2 hb1
  rw [add_to_index]
  exact IndexBound_apiPass _ api B h3 hb2

/-- `indexGet` returning a counter means the corresponding entry is in
the association list. -/
theorem indexGet_mem (idx : Index) (t : String) (c : Counter)
    (h : indexGet idx t = some c) : (t, c) ∈ idx := by
  induction idx with
  | nil => simp [indexGet] at h
  | cons e rest ih =>
    rw [indexGet] at h
    split_ifs at h with he
    · have hc : e.2 = c := Option.some.inj h
      have : e = (t, c) := by
        rcases e with ⟨e1, e2⟩
        simp only at he hc
        rw [he, hc]
      rw [← this]
      exact List.mem_cons_self e rest
    · exact List.mem_cons_of_mem e (ih h)

/-! ### The weighting and sorting pass -/

noncomputable instance : DecidableRel postLE :=
  fun a b => Classical.propDecidable (postLE a b)

instance : IsTotal (Nat × ℝ) postLE :=
  ⟨by
    intro a b
    rcases lt_trichotomy a.2 b.2 with h | h | h
    · exact Or.inr (Or.inl h)
    · rcases Nat.le_total a.1 b.1 with hn | hn
      · exact Or.inl (Or.inr ⟨h, hn⟩)
      · exact Or.inr (Or.inr ⟨h.symm, hn⟩)
    · exact Or.inl (Or.inl h)⟩

instance : IsTrans (Nat × ℝ) postLE :=
  ⟨by
    intro a b c hab hbc
    rcases hab with h1 | h1
    · rcases hbc with h2 | h2
      · exact Or.inl (lt_trans h2 h1)
      · exact Or.inl (by rw [← h2.1]; exact h1)
    · rcases hbc with h2 | h2
      · exact Or.inl (by rw [h1.1]; exact h2)
      · exact Or.inr ⟨h1.1.trans h2.1, h1.2.trans h2.2⟩⟩

theorem sortItems_perm (l : List (Nat × ℝ)) : List.Perm (sortItems l) l := by
  rw [sortItems]
  exact List.perm_insertionSort postLE l

theorem sortItems_sorted (l : List (Nat × ℝ)) : List.Sorted postLE (sortItems l) := by
  rw [sortItems]
  exact List.sorted_insertionSort postLE l

theorem weightCounter_fst (N : Nat) (c : Counter) :
    (weightCounter N c).map Prod.fst = c.map Prod.fst := by
  simp [weightCounter]

theorem weightCounter_length (N : Nat) (c : Counter) :
    (weightCounter N c).length = c.length := by
  simp [weightCounter]

theorem mem_weightCounter (N : Nat) (c : Counter) (i tf : Nat) (h : (i, tf) ∈ c) :
    (i, idfF N c.length * Real.logb 10 (1 + (tf : ℝ))) ∈ weightCounter N c := by
  rw [weightCounter]
  exact List.mem_map.mpr ⟨(i, tf), h, rfl⟩

theorem mem_weightCounter_val (N : Nat) (c : Counter) (p : Nat × ℝ)
    (h : p ∈ weightCounter N c) :
    ∃ q ∈ c, p = (q.1, idfF N c.length * Real.logb 10 (1 + (q.2 : ℝ))) := by
  rw [weightCounter] at h
  rcases List.mem_map.mp h with ⟨q, hq, hq2⟩
  exact ⟨q, hq, hq2.symm⟩

theorem windexGet_weight_index (N : Nat) (idx : Index) (t : String) :
    windexGet (weight_index N idx) t
      = (indexGet idx t).map (fun c => sortItems (weightCounter N c)) := by
  induction idx with
  | nil => simp [weight_index, windexGet, indexGet]
  | cons e rest ih =>
    simp only [weight_index, List.map_cons, windexGet, indexGet]
    split_ifs with he
    · rfl
    · exact ih

theorem pairwise_and_of {α : Type} {R S : α → α → Prop} :
    ∀ {l : List α}, l.Pairwise R → l.Pairwise S →
      l.Pairwise (fun a b => R a b ∧ S a b) := by
  intro l
  induction l with
  | nil => intro _ _; exact List.Pairwise.nil
  | cons a rest ih =>
    intro hR hS
    rcases List.pairwise_cons.mp hR with ⟨hRa, hRrest⟩
    rcases List.pairwise_cons.mp hS with ⟨hSa, hSrest⟩
    exact List.pairwise_cons.mpr ⟨fun b hb => ⟨hRa b hb, hSa b hb⟩, ih hRrest hSrest⟩

/-- A sorted postings list with unique doc ids is a descending chain:
weights non-increasing, equal weights resolved by strictly increasing
doc ids. -/
theorem sorted_nodup_chain (ws : List (Nat × ℝ)) (hs : List.Sorted postLE ws)
    (hn : (ws.map Prod.fst).Nodup) :
    List.Chain' (fun a b : Nat × ℝ => b.2 ≤ a.2 ∧ (a.2 = b.2 → a.1 < b.1)) ws := by
  have hpn : ws.Pairwise (fun a b => a.1 ≠ b.1) := List.pairwise_map.mp hn
  have hcomb := pairwise_and_of hs hpn
  refine List.Pairwise.chain' (List.Pairwise.imp ?_ hcomb)
  intro a b h
  rcases h.1 with hlt | heq
  · exact ⟨le_of_lt hlt, fun heq2 => absurd heq2 (ne_of_gt hlt)⟩
  · exact ⟨le_of_eq heq.1.symm, fun _ => lt_of_le_of_ne heq.2 h.2⟩

/-! ### Claim theorems -/

/-- C4: in a stopword-enabled field pass, a raw underscore-delimited
sub-piece of length 1, of length at least 19, or present in the active
stopword set never produces an index term (and leaves the index
untouched); the gates are checked on the raw sub-piece before stemming
(they do not depend on the stemmer), and stemming plus synonym rewriting
are applied exactly to the sub-pieces that survive both gates. -/
theorem claim_C4 : ∀ (stem : String → String) (stop : List String) (w : String)
    (idx : Index) (i : Nat),
    ((w.length < 2 ∨ w.length > 18 ∨ w ∈ stop) →
      normalizeTerm stem stop w = none ∧ processPiece stem stop idx i w = idx)
    ∧ (¬ (w.length < 2 ∨ w.length > 18 ∨ w ∈ stop) →
      normalizeTerm stem stop w = some (replace_synonyms (stem w)))
    ∧ ((normalizeTerm stem stop w).isNone
        = (normalizeTerm (fun s => s) stop w).isNone) := by
  intro stem stop w idx i
  refine ⟨?_, ?_, ?_⟩
  · intro h
    have hn : normalizeTerm stem stop w = none := by rw [normalizeTerm, if_pos h]
    refine ⟨hn, ?_⟩
    rw [processPiece, hn]
  · intro h
    rw [normalizeTerm, if_neg h]
  · rw [normalizeTerm, normalizeTerm]
    split_ifs <;> simp

theorem claim_C4_witness :
    (normalizeTerm (fun s => s) ["the"] "a" = none
      ∧ processPiece (fun s => s) ["the"] [] 0 "a" = [])
    ∧ normalizeTerm (fun s => s) ["the"] "store" = some (replace_synonyms "store") :=
  ⟨(claim_C4 (fun s => s) ["the"] "a" [] 0).1 (by decide),
   (claim_C4 (fun s => s) ["the"] "store" [] 0).2.1 (by decide)⟩

/-- C5 counterexample: the rule `remov → delet` has no boundary spaces
in its pattern, so it fires inside the longer word `removal` (where
`remov` occurs only as a proper substring of a longer alphabetic run),
rewriting it to `deletal` — refuting the claim that every rule of the
table is an exact whole-word substitution. -/
theorem claim_C5_cex :
    replace_synonyms "removal" = "deletal" ∧ "deletal" ≠ "removal" := by
  constructor
  · decide
  · decide

/-- C5 amended: rules whose pattern carries boundary spaces on both
sides act as whole-word substitutions — `read` maps to `load` as an
exact word but does not fire inside `readable` — while rules lacking a
boundary space (such as `remov → delet`) do rewrite proper substrings
of longer words (`removal` becomes `deletal`). -/
theorem claim_C5 :
    replace_synonyms "read" = "load"
    ∧ replace_synonyms "readable" = "readable"
    ∧ replace_synonyms "removal" = "deletal" := by
  refine ⟨by decide, by decide, by decide⟩

/-- C10: when translating integer-encoded documents back to terms,
every integer index absent from the corresponding vocabulary mapping is
rendered as the literal token `UNK` rather than raising an error, and
all three fields of the inverted-index branch of `load_data` are
translated through the same total function. -/
theorem claim_C10 : ∀ (vocab : List (String × Nat)) (i : Nat),
    (∀ p ∈ vocab, p.2 ≠ i) →
    (invGet vocab i).getD "UNK" = "UNK"
    ∧ (∀ (l : List Nat) (k : Nat), l.get? k = some i →
        (invTranslate vocab l).get? k = some "UNK")
    ∧ (∀ (vm vt va : List (String × Nat)) (mni tki ani : List (List Nat)),
        load_data_ret "inverted_index" vm vt va mni tki ani
          = some [PyField.strs (mni.map (invTranslate vm)),
                  PyField.strs (tki.map (invTranslate vt)),
                  PyField.strs (ani.map (invTranslate va))]) := by
  intro vocab i h
  have hnone : invGet vocab i = none := by
    rw [invGet]
    have hfind : vocab.reverse.find? (fun p => p.2 == i) = none := by
      rw [List.find?_eq_none]
      intro x hx
      simpa using h x (List.mem_reverse.mp hx)
    rw [hfind]
    rfl
  refine ⟨by rw [hnone]; rfl, ?_, ?_⟩
  · intro l k hk
    rw [invTranslate, List.get?_map, hk]
    simp [hnone]
  · intro vm vt va mni tki ani
    rfl

theorem claim_C10_witness : (invGet [("hello", 4)] 7).getD "UNK" = "UNK" :=
  (claim_C10 [("hello", 4)] 7 (by decide)).1

/-- C8: for the `word_indices` index type nothing is built or stored —
`create_index` returns before touching any index and `save_index`
persists nothing — and `load_data` passes the integer-encoded document
collection through; however the `load_index` passthrough then unpacks
that 2-tuple into three variables, so it raises a `ValueError` instead
of returning the sequences (the code bug behind this claim). -/
theorem claim_C8 : ∀ (fs : List String) (dpath : String) (dp : DataParams)
    (vm vt va : List (String × Nat)) (mni tki ani : List (List Nat))
    (stem : String → String) (stop : List String) (idx : Index),
    create_index_run "word_indices" dpath fs dp stem stop vm vt va mni tki ani = none
    ∧ save_index "word_indices" idx = none
    ∧ load_data_ret "word_indices" vm vt va mni tki ani
        = some [PyField.ints mni, PyField.ints tki]
    ∧ (missing_input fs dpath dp = none →
        load_index_word_indices fs dpath dp vm vt va mni tki ani
          = Except.error "ValueError: not enough values to unpack (expected 3, got 2)") := by
  intro fs dpath dp vm vt va mni tki ani stem stop idx
  refine ⟨rfl, rfl, rfl, ?_⟩
  intro hm
  rw [load_index_word_indices, load_data, hm]
  rfl

theorem claim_C8_witness :
    missing_input ["d/m", "d/t", "d/a"] "d/" ⟨"m", "t", "a"⟩ = none
    ∧ load_index_word_indices ["d/m", "d/t", "d/a"] "d/" ⟨"m", "t", "a"⟩ [] [] [] [] [] []
        = Except.error "ValueError: not enough values to unpack (expected 3, got 2)" :=
  ⟨by decide,
   (claim_C8 ["d/m", "d/t", "d/a"] "d/" ⟨"m", "t", "a"⟩ [] [] [] [] [] []
      (fun s => s) [] []).2.2.2 (by decide)⟩

/-- C9 counterexample: with no files present, the build aborts with the
fixed assertion message `Method names of real data not found.` — and
that message does not contain the missing path, refuting the claim that
the failure names the missing path. -/
theorem claim_C9_cex :
    create_index_checked [] "data/" ⟨"m.h5", "t.h5", "a.h5"⟩ (fun s => s) ["the"]
        [] [] [] [] [] []
      = Except.error "Method names of real data not found."
    ∧ occursIn ("data/" ++ "m.h5").data
        "Method names of real data not found.".data = false := by
  constructor
  · rfl
  · decide

/-- C9 amended: if any of the three required document field files is
absent, the build fails inside `load_data`'s assertions — before the
in-memory index is created and before any accumulation or weighting —
and the raised error carries a fixed message naming the missing input
kind (method names / tokens / API sequences), though not the missing
path; the first missing file in source order determines the message. -/
theorem claim_C9 : ∀ (fs : List String) (dpath : String) (dp : DataParams)
    (stem : String → String) (stop : List String)
    (vm vt va : List (String × Nat)) (mni tki ani : List (List Nat)),
    (((dpath ++ dp.use_methname) ∉ fs ∨ (dpath ++ dp.use_tokens) ∉ fs
        ∨ (dpath ++ dp.use_apiseq) ∉ fs) →
      ∃ e, missing_input fs dpath dp = some e
        ∧ create_index_checked fs dpath dp stem stop vm vt va mni tki ani
            = Except.error e
        ∧ (e = "Method names of real data not found."
            ∨ e = "Tokens of real data not found."
            ∨ e = "API sequences of real data not found."))
    ∧ ((dpath ++ dp.use_methname) ∉ fs →
        create_index_checked fs dpath dp stem stop vm vt va mni tki ani
          = Except.error "Method names of real data not found.") := by
  intro fs dpath dp stem stop vm vt va mni tki ani
  have key : ∀ e, missing_input fs dpath dp = some e →
      create_index_checked fs dpath dp stem stop vm vt va mni tki ani
        = Except.error e := by
    intro e he
    rw [create_index_checked, load_data, he]
  constructor
  · intro h
    by_cases h1 : (dpath ++ dp.use_methname) ∈ fs
    · by_cases h2 : (dpath ++ dp.use_tokens) ∈ fs
      · by_cases h3 : (dpath ++ dp.use_apiseq) ∈ fs
        · rcases h with h | h | h <;> contradiction
        · have hm : missing_input fs dpath dp
              = some "API sequences of real data not found." := by
            rw [missing_input, if_neg (not_not_intro h1), if_neg (not_not_intro h2),
              if_pos h3]
          exact ⟨_, hm, key _ hm, Or.inr (Or.inr rfl)⟩
      · have hm : missing_input fs dpath dp
            = some "Tokens of real data not found." := by
          rw [missing_input, if_neg (not_not_intro h1), if_pos h2]
        exact ⟨_, hm, key _ hm, Or.inr (Or.inl rfl)⟩
    · have hm : missing_input fs dpath dp
          = some "Method names of real data not found." := by
        rw [missing_input, if_pos h1]
      exact ⟨_, hm, key _ hm, Or.inl rfl⟩
  · intro h1
    have hm : missing_input fs dpath dp
        = some "Method names of real data not found." := by
      rw [missing_input, if_pos h1]
    exact key _ hm

theorem claim_C9_witness :
    create_index_checked [] "data/" ⟨"m.h5", "t.h5", "a.h5"⟩ (fun s => s) ["the"]
        [] [] [] [] [] []
      = Except.error "Method names of real data not found." :=
  (claim_C9 [] "data/" ⟨"m.h5", "t.h5", "a.h5"⟩ (fun s => s) ["the"]
    [] [] [] [] [] []).2 (by decide)

/-- C2: the inverted-index accumulation consists of exactly three passes
in a fixed order — method names with the base stopword set, then free
tokens with `new` injected into the set (after the first pass, so a
method-name token `new` is still normalized while the same free token is
suppressed), then API calls with stopwords disabled — and in the API
pass a token increments the index iff it is the literal `[]`, each
occurrence adding exactly one increment of term `[]` for the document,
while any other token contributes nothing. -/
theorem claim_C2 : ∀ (stem : String → String) (stop : List String)
    (mn tk api : List (List String)) (t : String) (i : Nat),
    stop ≠ [] →
    (countOf (create_index_raw stem stop mn tk api) t i
      = (docTerms stem stop (mn.getD i [])).count t
        + (docTerms stem (setAdd stop "new") (tk.getD i [])).count t
        + (if t = "[]" then (api.getD i []).count "[]" else 0))
    ∧ ("new" ∉ stop →
        normalizeTerm stem stop "new" = some (replace_synonyms (stem "new"))
        ∧ normalizeTerm stem (setAdd stop "new") "new" = none)
    ∧ (∀ idx : Index, countOf (add_to_index stem idx api none) "[]" i
        = countOf idx "[]" i + (api.getD i []).count "[]")
    ∧ (∀ (idx : Index) (u : String), u ≠ "[]" →
        countOf (add_to_index stem idx api none) u i = countOf idx u i) := by
  intro stem stop mn tk api t i h
  refine ⟨?_, ?_, ?_, ?_⟩
  · rw [countOf_create_index_raw stem stop mn tk api t i h, totalOcc]
  · intro hnew
    constructor
    · rw [normalizeTerm, if_neg]
      intro hh
      rcases hh with hh | hh | hh
      · exact absurd hh (by decide)
      · exact absurd hh (by decide)
      · exact hnew hh
    · have hcond : ("new" : String).length < 2 ∨ ("new" : String).length > 18
          ∨ "new" ∈ setAdd stop "new" := by
        refine Or.inr (Or.inr ?_)
        rw [setAdd]
        by_cases hmem : "new" ∈ stop
        · rw [if_pos hmem]
          exact hmem
        · rw [if_neg hmem]
          exact List.mem_append.mpr (Or.inr (List.mem_singleton.mpr rfl))
      rw [normalizeTerm, if_pos hcond]
  · intro idx
    show countOf (apiPass idx api) "[]" i = _
    rw [countOf_apiPass, if_pos rfl]
  · intro idx u hu
    show countOf (apiPass idx api) u i = _
    rw [countOf_apiPass, if_neg hu]
    exact Nat.add_zero _

theorem claim_C2_witness :
    normalizeTerm (fun s => s) ["the"] "new" = some (replace_synonyms "new")
    ∧ normalizeTerm (fun s => s) (setAdd ["the"] "new") "new" = none :=
  (claim_C2 (fun s => s) ["the"] [["new"]] [["new"]] [["[]"]] "creat" 0
    (by decide)).2.1 (by decide)

theorem counterGet_pos_iff (c : Counter) (i : Nat) (h : ∀ p ∈ c, 1 ≤ p.2) :
    0 < counterGet c i ↔ c.any (fun p => p.1 == i) = true := by
  induction c with
  | nil => simp [counterGet]
  | cons p rest ih =>
    rw [counterGet]
    split_ifs with hp
    · constructor
      · intro _
        simp [List.any_cons, hp]
      · intro _
        exact lt_of_lt_of_le Nat.zero_lt_one (h p (List.mem_cons_self p rest))
    · rw [ih (fun q hq => h q (List.mem_cons_of_mem p hq))]
      simp [List.any_cons, hp]

theorem hasPosting_iff_countOf_pos (idx : Index) (t : String) (i : Nat)
    (h : IndexWF idx) : hasPosting idx t i = true ↔ 0 < countOf idx t i := by
  rw [hasPosting, countOf]
  rcases hg : indexGet idx t with _ | c
  · simp
  · exact (counterGet_pos_iff c i ((h (t, c) (indexGet_mem idx t c hg)).1.2)).symm

/-- C7: after accumulation the index has a postings entry mapping a term
to a document iff that document's relevant fields yield at least one
surviving normalized term equal to it; every stored raw count is at
least 1, and every indexed term has at least one posting, so `df ≥ 1`
and the division in the idf computation is never by zero. -/
theorem claim_C7 : ∀ (stem : String → String) (stop : List String)
    (mn tk api : List (List String)) (t : String) (i : Nat), stop ≠ [] →
    (hasPosting (create_index_raw stem stop mn tk api) t i = true
      ↔ 0 < totalOcc stem stop mn tk api t i)
    ∧ (∀ (c : Counter) (p : Nat × Nat),
        indexGet (create_index_raw stem stop mn tk api) t = some c →
        p ∈ c → 1 ≤ p.2)
    ∧ (∀ c : Counter, indexGet (create_index_raw stem stop mn tk api) t = some c →
        1 ≤ c.length) := by
  intro stem stop mn tk api t i h
  have hwf := IndexWF_create_index_raw stem stop mn tk api
  refine ⟨?_, ?_, ?_⟩
  · rw [hasPosting_iff_countOf_pos _ _ _ hwf,
      countOf_create_index_raw stem stop mn tk api t i h]
  · intro c p hg hp
    exact (hwf (t, c) (indexGet_mem _ _ _ hg)).1.2 p hp
  · intro c hg
    have hne := (hwf (t, c) (indexGet_mem _ _ _ hg)).2
    cases c with
    | nil => exact absurd rfl hne
    | cons q rest => simp

theorem claim_C7_witness :
    hasPosting (create_index_raw (fun s => s) ["the"] [["store"]] [[]] [["[]"]])
        "store" 0 = true
      ↔ 0 < totalOcc (fun s => s) ["the"] [["store"]] [[]] [["[]"]] "store" 0 :=
  (claim_C7 (fun s => s) ["the"] [["store"]] [[]] [["[]"]] "store" 0 (by decide)).1

/-- C1: the weighting pass replaces every raw per-document count `tf`
by `idf * log10(1 + tf)` with `idf = log10(N / df)`, `N` the number of
documents in the method-name field and `df` the number of distinct doc
ids in the term's postings; on the 10-document corpus `mn10` where
`store` has raw counts 1 (doc 0) and 3 (doc 1), `idf = log10 5`, the
weights are `log10 5 * log10 2` and `log10 5 * log10 4`, and the
count-3 document is stored before the count-1 document. -/
theorem claim_C1 :
    (∀ (stem : String → String) (stop : List String)
        (mn tk api : List (List String)) (t : String) (c : Counter) (i tf : Nat),
      indexGet (create_index_raw stem stop mn tk api) t = some c →
      (i, tf) ∈ c →
      (i, Real.logb 10 ((mn.length : ℝ) / ((c.map Prod.fst).dedup.length : ℝ))
          * Real.logb 10 (1 + (tf : ℝ)))
        ∈ wPostings (create_index stem stop mn tk api) t)
    ∧ wPostings (create_index (fun s => s) ["the"] mn10 tk10 api10) "store"
        = [(1, Real.logb 10 5 * Real.logb 10 4), (0, Real.logb 10 5 * Real.logb 10 2)]
    ∧ Real.logb 10 5 * Real.logb 10 2 < Real.logb 10 5 * Real.logb 10 4 := by
  have hlt : Real.logb 10 5 * Real.logb 10 2 < Real.logb 10 5 * Real.logb 10 4 := by
    have h2 : Real.logb 10 2 < Real.logb 10 4 :=
      Real.logb_lt_logb (by norm_num) (by norm_num) (by norm_num)
    have h5 : 0 < Real.logb 10 5 := Real.logb_pos (by norm_num) (by norm_num)
    exact mul_lt_mul_of_pos_left h2 h5
  refine ⟨?_, ?_, hlt⟩
  · intro stem stop mn tk api t c i tf hget hmem
    have hwf := ((IndexWF_create_index_raw stem stop mn tk api) (t, c)
      (indexGet_mem _ _ _ hget)).1
    have hlen : ((c.map Prod.fst).dedup.length : ℝ) = (c.length : ℝ) := by
      rw [List.Nodup.dedup hwf.1, List.length_map]
    rw [create_index, wPostings, windexGet_weight_index, hget, Option.map_some',
      Option.getD_some, hlen]
    have hm := mem_weightCounter mn.length c i tf hmem
    exact ((sortItems_perm (weightCounter mn.length c)).mem_iff).mpr hm
  · have hget : indexGet (create_index_raw (fun s => s) ["the"] mn10 tk10 api10)
        "store" = some [(0, 1), (1, 3)] := by decide
    rw [create_index, wPostings, windexGet_weight_index, hget, Option.map_some',
      Option.getD_some]
    have hN : mn10.length = 10 := rfl
    rw [hN]
    have hwc : weightCounter 10 [(0, 1), (1, 3)]
        = [(0, Real.logb 10 5 * Real.logb 10 2),
           (1, Real.logb 10 5 * Real.logb 10 4)] := by
      rw [weightCounter]
      simp only [List.map_cons, List.map_nil, List.length_cons, List.length_nil]
      norm_num [idfF]
    rw [hwc, sortItems]
    simp only [List.insertionSort, List.orderedInsert]
    rw [if_neg]
    intro hcon
    rcases hcon with hcon | hcon
    · exact absurd hcon (not_lt.mpr (le_of_lt hlt))
    · exact absurd hcon.1 (ne_of_lt hlt)

theorem claim_C1_witness :
    ((0 : Nat), Real.logb 10 ((mn10.length : ℝ)
        / (((([((0 : Nat), (1 : Nat)), (1, 3)] : Counter).map Prod.fst).dedup.length : ℝ)))
      * Real.logb 10 (1 + ((1 : Nat) : ℝ)))
      ∈ wPostings (create_index (fun s => s) ["the"] mn10 tk10 api10) "store" :=
  claim_C1.1 (fun s => s) ["the"] mn10 tk10 api10 "store" [(0, 1), (1, 3)] 0 1
    (by decide) (by decide)

/-- C3: after the weighting pass, every term's stored postings are
ordered by weight descending with ties broken by doc id ascending:
along the stored order weights never increase, and two consecutive
postings of equal weight have strictly increasing doc ids. -/
theorem claim_C3 : ∀ (stem : String → String) (stop : List String)
    (mn tk api : List (List String)) (t : String) (ws : List (Nat × ℝ)),
    windexGet (create_index stem stop mn tk api) t = some ws →
    List.Chain' (fun a b : Nat × ℝ => b.2 ≤ a.2 ∧ (a.2 = b.2 → a.1 < b.1)) ws := by
  intro stem stop mn tk api t ws hws
  rw [create_index, windexGet_weight_index] at hws
  rcases hg : indexGet (create_index_raw stem stop mn tk api) t with _ | c
  · rw [hg] at hws
    simp at hws
  · rw [hg, Option.map_some'] at hws
    have hwf := ((IndexWF_create_index_raw stem stop mn tk api) (t, c)
      (indexGet_mem _ _ _ hg)).1
    have hnodup : ((sortItems (weightCounter mn.length c)).map Prod.fst).Nodup := by
      have hperm : List.Perm ((sortItems (weightCounter mn.length c)).map Prod.fst)
          ((weightCounter mn.length c).map Prod.fst) :=
        (sortItems_perm (weightCounter mn.length c)).map Prod.fst
      rw [weightCounter_fst] at hperm
      exact (hperm.nodup_iff).mpr hwf.1
    have hch := sorted_nodup_chain _ (sortItems_sorted (weightCounter mn.length c)) hnodup
    rw [← Option.some.inj hws]
    exact hch

theorem claim_C3_witness :
    List.Chain' (fun a b : Nat × ℝ => b.2 ≤ a.2 ∧ (a.2 = b.2 → a.1 < b.1))
      (sortItems (weightCounter 1 [(0, 1)])) :=
  claim_C3 (fun s => s) ["the"] [["store"]] [[]] [[]] "store"
    (sortItems (weightCounter 1 [(0, 1)])) (by
      rw [create_index, windexGet_weight_index,
        (by decide : indexGet (create_index_raw (fun s => s) ["the"] [["store"]] [[]] [[]])
          "store" = some [(0, 1)])]
      rfl)

/-- C6: provided every field contains at most `N` documents (`N` the
method-name count), every indexed term has `idf ≥ 0`, with `idf = 0`
iff the term occurs in every one of the `N` documents; `idf` strictly
decreases as `df` grows for fixed `N`; and a term occurring in all `N`
documents gets weight 0 on every posting while all its postings remain
present. -/
theorem claim_C6 : ∀ (stem : String → String) (stop : List String)
    (mn tk api : List (List String)),
    tk.length ≤ mn.length → api.length ≤ mn.length →
    (∀ (t : String) (c : Counter),
      indexGet (create_index_raw stem stop mn tk api) t = some c →
        0 ≤ idfF mn.length c.length
        ∧ (idfF mn.length c.length = 0 ↔ ∀ j < mn.length, j ∈ c.map Prod.fst)
        ∧ ((∀ j < mn.length, j ∈ c.map Prod.fst) →
            (∀ p ∈ wPostings (create_index stem stop mn tk api) t, p.2 = 0)
            ∧ (wPostings (create_index stem stop mn tk api) t).length = c.length))
    ∧ (∀ d1 d2 : Nat, 1 ≤ d1 → d1 < d2 → d2 ≤ mn.length →
        idfF mn.length d2 < idfF mn.length d1) := by
  intro stem stop mn tk api htk hapi
  constructor
  · intro t c hget
    have hwfI := IndexWF_create_index_raw stem stop mn tk api
    have hmemI := indexGet_mem _ _ _ hget
    have hwf := (hwfI (t, c) hmemI).1
    have hne := (hwfI (t, c) hmemI).2
    have hbound := IndexBound_create_index_raw stem stop mn tk api mn.length
      (Nat.le_refl mn.length) htk hapi (t, c) hmemI
    have hkeys_lt : ∀ k ∈ c.map Prod.fst, k < mn.length := by
      intro k hk
      rcases List.mem_map.mp hk with ⟨p, hp, hpk⟩
      exact hpk ▸ hbound p hp
    have hsub : c.map Prod.fst ⊆ List.range mn.length :=
      fun k hk => List.mem_range.mpr (hkeys_lt k hk)
    have hsubperm := List.Nodup.subperm hwf.1 hsub
    have hdf_le : c.length ≤ mn.length := by
      have := hsubperm.length_le
      rwa [List.length_map, List.length_range] at this
    have hdf_pos : 1 ≤ c.length := by
      cases c with
      | nil => exact absurd rfl hne
      | cons q rest => simp
    have hN_pos : 1 ≤ mn.length := le_trans hdf_pos hdf_le
    have hdfR : (0 : ℝ) < (c.length : ℝ) := by exact_mod_cast hdf_pos
    have hNR : (0 : ℝ) < (mn.length : ℝ) := by exact_mod_cast hN_pos
    have hx1 : (1 : ℝ) ≤ (mn.length : ℝ) / (c.length : ℝ) := by
      rw [one_le_div hdfR]
      exact_mod_cast hdf_le
    have hall_of_df : c.length = mn.length → ∀ j < mn.length, j ∈ c.map Prod.fst := by
      intro hdf_eq j hj
      have hperm : List.Perm (c.map Prod.fst) (List.range mn.length) :=
        hsubperm.perm_of_length_le
          (by rw [List.length_range, List.length_map, hdf_eq])
      exact hperm.mem_iff.mpr (List.mem_range.mpr hj)
    have hdf_of_all : (∀ j < mn.length, j ∈ c.map Prod.fst) → c.length = mn.length := by
      intro hall
      have hsup : List.range mn.length ⊆ c.map Prod.fst :=
        fun j hj => hall j (List.mem_range.mp hj)
      have hge : mn.length ≤ c.length := by
        have := ((List.nodup_range mn.length).subperm hsup).length_le
        rwa [List.length_map, List.length_range] at this
      exact le_antisymm hdf_le hge
    have hidf_zero_of_eq : c.length = mn.length → idfF mn.length c.length = 0 := by
      intro hdf_eq
      rw [idfF, hdf_eq, div_self (ne_of_gt hNR)]
      exact Real.logb_one
    refine ⟨Real.logb_nonneg (by norm_num) hx1, ⟨?_, ?_⟩, ?_⟩
    · intro h0
      apply hall_of_df
      have hx_pos : (0 : ℝ) < (mn.length : ℝ) / (c.length : ℝ) :=
        lt_of_lt_of_le one_pos hx1
      have hx_eq : (mn.length : ℝ) / (c.length : ℝ) = 1 := by
        rcases Real.logb_eq_zero.mp (by rw [idfF] at h0; exact h0) with
          h | h | h | h | h | h
        · norm_num at h
        · norm_num at h
        · norm_num at h
        · exact absurd h (ne_of_gt hx_pos)
        · exact h
        · rw [h] at hx1
          norm_num at hx1
      have : (mn.length : ℝ) = (c.length : ℝ) := by
        rw [div_eq_iff (ne_of_gt hdfR)] at hx_eq
        simpa using hx_eq
      exact_mod_cast this.symm
    · intro hall
      exact hidf_zero_of_eq (hdf_of_all hall)
    · intro hall
      have hdf_eq := hdf_of_all hall
      have hidf := hidf_zero_of_eq hdf_eq
      have hw : wPostings (create_index stem stop mn tk api) t
          = sortItems (weightCounter mn.length c) := by
        rw [create_index, wPostings, windexGet_weight_index, hget]
        rfl
      constructor
      · intro p hp
        rw [hw] at hp
        have hp2 := (sortItems_perm (weightCounter mn.length c)).mem_iff.mp hp
        rcases mem_weightCounter_val mn.length c p hp2 with ⟨q, hq, hpq⟩
        rw [hpq]
        simp [hidf]
      · rw [hw, (sortItems_perm (weightCounter mn.length c)).length_eq,
          weightCounter_length]
  · intro d1 d2 h1 h12 h2N
    have hN_pos : 0 < mn.length := by omega
    have hNR : (0 : ℝ) < (mn.length : ℝ) := by exact_mod_cast hN_pos
    have hd1R : (0 : ℝ) < (d1 : ℝ) := by exact_mod_cast (by omega : 0 < d1)
    have hd2R : (0 : ℝ) < (d2 : ℝ) := by exact_mod_cast (by omega : 0 < d2)
    rw [idfF, idfF]
    apply Real.logb_lt_logb (by norm_num) (div_pos hNR hd2R)
    rw [div_lt_div_left hNR hd2R hd1R]
    exact_mod_cast h12

theorem claim_C6_witness : 0 ≤ idfF 1 1 :=
  ((claim_C6 (fun s => s) ["the"] [["store"]] [[]] [[]] (by decide) (by decide)).1
    "store" [(0, 1)] (by decide)).1

